import Mathlib

/-!
Verification of the cascade-folder-permissions module
(`scripts/cascade-permissions.js`).

The development shallowly embeds the core cascade logic:
  * `jsToNumber`   - ECMAScript `Number(string)` coercion (host-language
    primitive used at line 132 of the source);
  * `normalizeForm` - the normalization loop of `_cascadeOwnership`
    (lines 129-140);
  * `getSubfoldersManual` - the manual stack traversal `_getSubfoldersManual`
    (lines 206-218), both over inductive trees (the host guarantees the
    folder graph is a tree) and over reference graphs with fuel (to study
    what happens when that guarantee is violated);
  * `cascadeOwnership` - the engine `_cascadeOwnership` (lines 124-201),
    parameterized over the host collaborators (the primary enumeration
    `Folder#getSubfolders(true)` and the store `updateDocuments`), returning
    the reported outcome together with the list of store batches submitted.
-/

/-- A folder: identifier, contained document identifiers (`contents`), and
child folders (`children`).  The host platform guarantees the folder graph
is a tree, which this inductive type captures; children are folders
directly (in the source, `child.folder ?? child` unwraps the child record
and `instanceof Folder` filters out non-folder entries, so each effective
stack entry is a folder reference). -/
inductive Folder : Type where
  | mk (id : String) (contents : List String) (children : List Folder)
deriving Inhabited

/-- Identifier of a folder. -/
def Folder.id : Folder → String
  | .mk i _ _ => i

/-- Document identifiers directly contained in the folder
(`f.contents ?? []` in the source; an absent list is the empty list). -/
def Folder.contents : Folder → List String
  | .mk _ c _ => c

/-- Direct child folders (`root.children ?? []` in the source). -/
def Folder.children : Folder → List Folder
  | .mk _ _ ch => ch

/-- Total size of a list of folder trees (number of nodes), the
termination measure for the manual stack traversal. -/
def sizeL : List Folder → Nat
  | [] => 0
  | (.mk _ _ cs) :: rest => 1 + sizeL cs + sizeL rest

/-- The `while (stack.length)` loop of `_getSubfoldersManual`
(source lines 209-216).  The Lean list holds the JS stack with its top
(the last JS array element) at the head: `stack.pop()` takes the head, and
pushing the children `c₁ … cₙ` in order leaves `cₙ` on top, i.e. prepends
`children.reverse`.  `result.push(f)` accumulates in `acc` (reversed), and
the final result is returned in push order.  In the tree model every stack
entry is a folder, so the `instanceof Folder` guard always passes. -/
def manualLoop : List Folder → List Folder → List Folder
  | [], acc => acc.reverse
  | f :: stack, acc => manualLoop (f.children.reverse ++ stack) (f :: acc)
termination_by stack _ => sizeL stack
decreasing_by
have happ : ∀ l₁ l₂ : List Folder, sizeL (l₁ ++ l₂) = sizeL l₁ + sizeL l₂ := by
  intro l₁
  induction l₁ with
  | nil => intro l₂; simp [sizeL]
  | cons g rest ih =>
      intro l₂
      cases g with
      | mk i c ch => simp only [List.cons_append, sizeL, ih]; omega
have hrev : ∀ l : List Folder, sizeL l.reverse = sizeL l := by
  intro l
  induction l with
  | nil => rfl
  | cons g rest ih =>
      cases g with
      | mk i c ch =>
          rw [List.reverse_cons, happ, ih]
          simp only [sizeL]
          omega
cases f with
| mk i c ch =>
    rw [happ, hrev]
    simp only [sizeL, Folder.children]
    omega

/-- `_getSubfoldersManual(root)` (source lines 206-218): seed the stack
with `root.children` (top = last element) and run the loop. -/
def getSubfoldersManual (root : Folder) : List Folder :=
  manualLoop root.children.reverse []

/-- All nodes of a list of folder trees, each tree in depth-first
preorder (the canonical enumeration of the containers reachable from the
roots by child edges). -/
def preorderL : List Folder → List Folder
  | [] => []
  | (.mk i c ch) :: rest => .mk i c ch :: (preorderL ch ++ preorderL rest)

/-- Modelled from the spec: `Folder#getSubfolders(true)`, the host
platform's recursive descendant enumeration used as the primary strategy
(source line 151), is not part of this repository.  Section 6 of the spec
describes it as "a method to enumerate all descendant containers
recursively"; this definition enumerates every proper descendant of the
root, in depth-first preorder. -/
def descendantsSpec (root : Folder) : List Folder :=
  preorderL root.children

/-- All containers reachable from `root` by child-container edges
(including `root` itself), each tree position listed once. -/
def allNodes (root : Folder) : List Folder := preorderL [root]

/-- Result of the ECMAScript `Number(...)` coercion of a string: NaN, a
signed infinity, or a rational value (every finite JS number arising from
a numeric literal is rational). -/
inductive JSNumber : Type where
  | nan
  | inf (neg : Bool)
  | val (q : ℚ)
deriving DecidableEq

/-- ECMAScript StrWhiteSpaceChar (the characters trimmed by `Number` on
strings): WhiteSpace = TAB, VT, FF, SP, NBSP, ZWNBSP (BOM) and every
Unicode Zs space separator (U+1680, U+2000-U+200A, U+202F, U+205F,
U+3000), together with the LineTerminators LF, CR, LS (U+2028) and PS
(U+2029).  Written as code-point comparisons so each character is
unambiguous. -/
def isStrWhite (c : Char) : Bool :=
  c.toNat = 0x9 ∨ c.toNat = 0xA ∨ c.toNat = 0xB ∨ c.toNat = 0xC ∨
    c.toNat = 0xD ∨ c.toNat = 0x20 ∨ c.toNat = 0xA0 ∨ c.toNat = 0x1680 ∨
    (0x2000 ≤ c.toNat ∧ c.toNat ≤ 0x200A) ∨ c.toNat = 0x2028 ∨
    c.toNat = 0x2029 ∨ c.toNat = 0x202F ∨ c.toNat = 0x205F ∨
    c.toNat = 0x3000 ∨ c.toNat = 0xFEFF

/-- Strip leading and trailing StrWhiteSpace. -/
def trimWs (cs : List Char) : List Char :=
  ((cs.dropWhile isStrWhite).reverse.dropWhile isStrWhite).reverse

/-- Decimal digit test. -/
def isDecDigit (c : Char) : Bool := '0' ≤ c ∧ c ≤ '9'

/-- Hexadecimal digit test. -/
def isHexDigit (c : Char) : Bool :=
  ('0' ≤ c ∧ c ≤ '9') ∨ ('a' ≤ c ∧ c ≤ 'f') ∨ ('A' ≤ c ∧ c ≤ 'F')

/-- Octal digit test. -/
def isOctDigit (c : Char) : Bool := '0' ≤ c ∧ c ≤ '7'

/-- Binary digit test. -/
def isBinDigit (c : Char) : Bool := c = '0' ∨ c = '1'

/-- Numeric value of a digit character (hex digits included). -/
def digitValue (c : Char) : Nat :=
  if '0' ≤ c ∧ c ≤ '9' then c.toNat - '0'.toNat
  else if 'a' ≤ c ∧ c ≤ 'f' then c.toNat - 'a'.toNat + 10
  else if 'A' ≤ c ∧ c ≤ 'F' then c.toNat - 'A'.toNat + 10
  else 0

/-- Value of a digit string in the given base (most significant first). -/
def natOfDigits (base : Nat) (ds : List Char) : Nat :=
  ds.foldl (fun a c => a * base + digitValue c) 0

/-- Parse the optional ExponentPart that may close a decimal literal:
the empty string yields exponent 0; otherwise `e`/`E`, an optional sign,
and at least one digit must consume the rest of the input. -/
def expPartValue : List Char → Option Int
  | [] => some 0
  | c :: rest =>
      if c = 'e' ∨ c = 'E' then
        match rest with
        | '+' :: r =>
            match r.span isDecDigit with
            | (ds, []) => if ds.isEmpty then none else some (natOfDigits 10 ds)
            | _ => none
        | '-' :: r =>
            match r.span isDecDigit with
            | (ds, []) => if ds.isEmpty then none else some (-(natOfDigits 10 ds : Int))
            | _ => none
        | r =>
            match r.span isDecDigit with
            | (ds, []) => if ds.isEmpty then none else some (natOfDigits 10 ds)
            | _ => none
      else none

/-- Rational value of `ints . fracs × 10 ^ e`, built from integer
arithmetic: the mantissa is the digit string `ints ++ fracs` read as a
natural number, scaled by the power of ten that the fraction length and
the exponent dictate. -/
def decValue (ints fracs : List Char) (e : Int) : ℚ :=
  let m : Nat := natOfDigits 10 ints * 10 ^ fracs.length + natOfDigits 10 fracs
  if 0 ≤ e then mkRat (m * 10 ^ e.toNat) (10 ^ fracs.length)
  else mkRat m (10 ^ fracs.length * 10 ^ (-e).toNat)

/-- Parse StrUnsignedDecimalLiteral (without sign, without `Infinity`):
`Digits [. Digits] [Exp]` or `. Digits [Exp]`, consuming all input. -/
def unsignedDecValue (cs : List Char) : Option ℚ :=
  match cs.span isDecDigit with
  | (ints, '.' :: r2) =>
      match r2.span isDecDigit with
      | (fracs, r3) =>
          if ints.isEmpty ∧ fracs.isEmpty then none
          else (expPartValue r3).map (decValue ints fracs)
  | (ints, r1) =>
      if ints.isEmpty then none
      else (expPartValue r1).map (decValue ints [])

/-- Parse a decimal body after the optional sign was removed:
either the literal `Infinity` or an unsigned decimal literal. -/
def finishDecimal (neg : Bool) (body : List Char) : JSNumber :=
  if body = "Infinity".toList then .inf neg
  else
    match unsignedDecValue body with
    | some q => .val (if neg then -q else q)
    | none => .nan

/-- Strip the optional leading sign and parse the decimal remainder. -/
def signedDecimal : List Char → JSNumber
  | '+' :: r => finishDecimal false r
  | '-' :: r => finishDecimal true r
  | r => finishDecimal false r

/-- Parse a non-decimal radix literal body (after `0x`, `0o` or `0b`):
at least one digit of the radix, consuming all input. -/
def radixNumber (base : Nat) (pred : Char → Bool) (ds : List Char) : JSNumber :=
  if ds ≠ [] ∧ ds.all pred then .val (natOfDigits base ds) else .nan

/-- The exact mathematical value of an ECMAScript StringNumericLiteral,
before rounding to a binary64 float: trim StrWhiteSpace; the empty
remainder is 0; `0x`/`0o`/`0b` literals; otherwise an optionally signed
decimal literal or `Infinity`; anything else is NaN. -/
def jsParseExact (s : String) : JSNumber :=
  match trimWs s.toList with
  | [] => .val 0
  | '0' :: c :: rest =>
      if c = 'x' ∨ c = 'X' then radixNumber 16 isHexDigit rest
      else if c = 'o' ∨ c = 'O' then radixNumber 8 isOctDigit rest
      else if c = 'b' ∨ c = 'B' then radixNumber 2 isBinDigit rest
      else signedDecimal ('0' :: c :: rest)
  | core => signedDecimal core

/-- Floor of the base-2 logarithm of `n`, fuel-recursive so that it
reduces in the kernel (`fuel = n` suffices: each step halves `n`). -/
def natLog2 : Nat → Nat → Nat
  | 0, _ => 0
  | fuel + 1, n => if 2 ≤ n then natLog2 fuel (n / 2) + 1 else 0

/-- Round the fraction `n / d` (with `d > 0`) to the nearest integer,
ties to even. -/
def rne (n d : Nat) : Nat :=
  let q := n / d
  let r := n % d
  if 2 * r < d then q
  else if d < 2 * r then q + 1
  else if q % 2 = 0 then q else q + 1

/-- Floor of the base-2 logarithm of the positive rational `a / b`
(`a, b ≥ 1`): the bit-length difference is off by at most one, so one
comparison settles it. -/
def floorLog2AB (a b : Nat) : Int :=
  let d : Int := (natLog2 a a : Int) - (natLog2 b b : Int)
  if 0 ≤ d then (if b * 2 ^ d.toNat ≤ a then d else d - 1)
  else (if b ≤ a * 2 ^ (-d).toNat then d else d - 1)

/-- Round the positive rational `a / b` (`a, b ≥ 1`) to the nearest
IEEE-754 binary64 value, ties to even: the significand is the nearest
integer to `(a/b) / 2^e` where `e` puts it in `[2^52, 2^53]`, clamped
below at the subnormal exponent `-1074` (values under half the least
subnormal round to 0); `none` is overflow to infinity (rounded magnitude
at least `2^1024`).  The result is the float's exact rational value. -/
def roundB64Pos (a b : Nat) : Option ℚ :=
  let p : Int := floorLog2AB a b
  if 1024 ≤ p then none
  else
    let e : Int := if p - 52 < -1074 then -1074 else p - 52
    let m : Nat := if 0 ≤ e then rne a (b * 2 ^ e.toNat) else rne (a * 2 ^ (-e).toNat) b
    if 0 ≤ e ∧ 2 ^ 1024 ≤ m * 2 ^ e.toNat then none
    else if 0 ≤ e then some (mkRat (m * 2 ^ e.toNat) 1)
    else some (mkRat m (2 ^ (-e).toNat))

/-- Round a finite exact value to binary64, with signed overflow to
infinity; zero is exact. -/
def roundFloat (q : ℚ) : JSNumber :=
  if q = 0 then .val 0
  else
    match roundB64Pos q.num.natAbs q.den with
    | none => .inf (decide (q.num < 0))
    | some r => .val (if q.num < 0 then -r else r)

/-- ECMAScript `Number(value)` for a string argument (the host-language
primitive applied at source line 132): the exact StringNumericLiteral
value rounded to the nearest binary64 float (ties to even, overflow to
the signed infinity, gradual underflow through the subnormals down
to 0). -/
def jsToNumber (s : String) : JSNumber :=
  match jsParseExact s with
  | .val q => roundFloat q
  | x => x

/-- The test `VALID_LEVELS.has(level)` of source line 133, after
`level = Number(value)`: membership of the coerced number in `{0,1,2,3}`.
`Set.has` uses SameValueZero, so NaN is never a member and `-0` counts
as 0. -/
def levelOf (value : String) : Option Nat :=
  match jsToNumber value with
  | .val q => if q = 0 ∨ q = 1 ∨ q = 2 ∨ q = 3 then some q.num.toNat else none
  | _ => none

/-- The normalization loop of `_cascadeOwnership` (source lines 129-140):
keep exactly the entries whose value coerces to a concrete permission
level in `{0,1,2,3}`; skip every other entry.  Form data is an
association list with distinct keys (a JS object). -/
def normalizeForm (formData : List (String × String)) : List (String × Nat) :=
  formData.filterMap (fun kv => (levelOf kv.2).map (fun l => (kv.1, l)))

/-- One element of the `allUpdates` batch (source line 168):
`{ _id: d.id, ownership }`. -/
structure UpdateOp : Type where
  id : String
  ownership : List (String × Nat)
deriving DecidableEq

/-- Terminal outcome of one `_cascadeOwnership` invocation, as reported at
the engine boundary: the silent early return for an empty normalized
assignment (lines 142-145), the "no documents found" notification
(lines 174-180), the error notification carrying the store's error
(lines 186-193), or the success notification with its item and
sub-folder counts (lines 195-200). -/
inductive CascadeResult (ε : Type) : Type where
  | nothingToApply
  | noDocuments
  | storeFailure (e : ε)
  | success (itemCount subfolderCount : Nat)
deriving DecidableEq

/-- Folder collection of `_cascadeOwnership` (source lines 148-156):
`allFolders` starts as `[folder]`; the primary strategy
`folder.getSubfolders(true)` is concatenated when it returns, and on a
thrown error the manual traversal is concatenated instead (the `catch`
leaves `allFolders` at `[folder]` because the failed `concat` never
assigned). -/
def collectFolders (getSubs : Folder → Except Unit (List Folder)) (folder : Folder) :
    List Folder :=
  match getSubs folder with
  | .ok subs => folder :: subs
  | .error _ => folder :: getSubfoldersManual folder

/-- Batch construction of `_cascadeOwnership` (source lines 160-170): one
update per document of every collected folder, each carrying the same
`ownership` object. -/
def buildUpdates (folders : List Folder) (ownership : List (String × Nat)) :
    List UpdateOp :=
  folders.flatMap (fun f => f.contents.map (fun d => ⟨d, ownership⟩))

/-- The engine `_cascadeOwnership(folder, formData)` (source lines
124-201), parameterized over the two host collaborators: `getSubs` is
`Folder#getSubfolders(true)` (`.error` models a thrown exception) and
`store` is `documentClass.updateDocuments` (`.error` models a
rejection).  Returns the reported outcome together with the list of
batches submitted to the store, in submission order, so that the
store-call behaviour is part of the observable result. -/
def cascadeOwnership (getSubs : Folder → Except Unit (List Folder)) {ε : Type}
    (store : List UpdateOp → Except ε Unit) (folder : Folder)
    (formData : List (String × String)) :
    CascadeResult ε × List (List UpdateOp) :=
  let ownership := normalizeForm formData
  if ownership.isEmpty then (.nothingToApply, [])
  else
    let allFolders := collectFolders getSubs folder
    let allUpdates := buildUpdates allFolders ownership
    if allUpdates.isEmpty then (.noDocuments, [])
    else
      match store allUpdates with
      | .ok _ => (.success allUpdates.length (allFolders.length - 1), [allUpdates])
      | .error e => (.storeFailure e, [allUpdates])

/-- A folder record in the reference-graph model of `_getSubfoldersManual`:
`children` holds references (identifiers) rather than subtrees, so the
model can express the graphs a buggy host could hand the fallback walk,
cycles included. -/
structure FolderNode : Type where
  contents : List String
  children : List Nat
deriving DecidableEq

/-- A heap of folder references: identifier to record.  An identifier
that resolves is a `Folder` instance; one that does not models a
non-folder entry, which the `instanceof Folder` guard of source line 211
skips. -/
abbrev RefGraph := List (Nat × FolderNode)

/-- Dereference a folder id in the heap. -/
def lookupNode (g : RefGraph) (i : Nat) : Option FolderNode :=
  (g.find? (fun p => p.1 == i)).map (fun p => p.2)

/-- The `while (stack.length)` loop of `_getSubfoldersManual` over the
reference graph, instrumented with fuel: one unit per iteration, `none`
when the fuel runs out before the stack empties.  The loop body is that
of source lines 210-215: pop, skip non-folders, record the folder, push
its children. -/
def manualLoopFuel (g : RefGraph) : Nat → List Nat → List Nat → Option (List Nat)
  | _, [], acc => some acc.reverse
  | 0, _ :: _, _ => none
  | fuel + 1, i :: stack, acc =>
      match lookupNode g i with
      | none => manualLoopFuel g fuel stack acc
      | some nd => manualLoopFuel g fuel (nd.children.reverse ++ stack) (i :: acc)

/-- `root.children ?? []` for the reference-graph model. -/
def rootChildren (g : RefGraph) (root : Nat) : List Nat :=
  ((lookupNode g root).map (fun nd => nd.children)).getD []

/-- `_getSubfoldersManual(root)` over the reference graph, with fuel. -/
def getSubfoldersManualFuel (g : RefGraph) (root : Nat) (fuel : Nat) :
    Option (List Nat) :=
  manualLoopFuel g fuel (rootChildren g root).reverse []

/-- The manual fallback walk terminates on `(g, root)`: some finite
number of loop iterations empties the stack. -/
def manualTerminates (g : RefGraph) (root : Nat) : Prop :=
  ∃ fuel res, getSubfoldersManualFuel g root fuel = some res

/-- A two-folder heap whose child references form a cycle: folder 0 and
folder 1 list each other as children. -/
def cycGraph : RefGraph := [(0, ⟨[], [1]⟩), (1, ⟨[], [0]⟩)]

/-- An acyclic two-folder heap: folder 0 has the single child 1, which is
a leaf. -/
def dagGraph : RefGraph := [(0, ⟨[], [1]⟩), (1, ⟨[], []⟩)]

/-- Largest direct-children count over the heap, the branching bound used
by the termination measure. -/
def outDegBound (g : RefGraph) : Nat :=
  (g.map (fun p => p.2.children.length)).foldr max 0

/-- Weight of one stack entry under a rank function: exponential in the
rank, with base one more than the branching bound. -/
def nodeWeight (g : RefGraph) (rank : Nat → Nat) (i : Nat) : Nat :=
  (outDegBound g + 1) ^ rank i

/-- Termination potential of a stack: total weight of its entries. -/
def potential (g : RefGraph) (rank : Nat → Nat) (stack : List Nat) : Nat :=
  (stack.map (nodeWeight g rank)).sum

/-- State of a store that records only the final per-item ownership:
item identifier to last ownership written, if any. -/
def StoreState : Type := String → Option (List (String × Nat))

/-- Effect of one `updateDocuments` batch on a recording store: each
operation overwrites the ownership of its item, in batch order. -/
def applyBatch (s : StoreState) (ops : List UpdateOp) : StoreState :=
  ops.foldl (fun st op => Function.update st op.id (some op.ownership)) s

/-- One `_cascadeOwnership` invocation run against a recording store that
always succeeds: the batches the engine submits are applied to the store
state in submission order. -/
def recordingCascade (getSubs : Folder → Except Unit (List Folder))
    (folder : Folder) (formData : List (String × String)) (s : StoreState) :
    StoreState :=
  ((cascadeOwnership getSubs (fun _ => (Except.ok () : Except Unit Unit))
      folder formData).2).foldl applyBatch s

/-- Scenario B sub-sub-folder: no documents. -/
def folderB2 : Folder := .mk "subsub" [] []

/-- Scenario B sub-folder: three documents and the empty sub-sub-folder. -/
def folderB1 : Folder := .mk "sub" ["d3", "d4", "d5"] [folderB2]

/-- Scenario B root: two documents and one sub-folder. -/
def folderB : Folder := .mk "root" ["d1", "d2"] [folderB1]

/-- A two-folder tree with no documents anywhere. -/
def folderEmpty : Folder := .mk "root" [] [.mk "sub" [] []]

/-- Claim C4: for every root container and every raw form-data map whose
normalized ownership map is empty, cascade reports the "nothing to apply"
outcome and submits no batch to the store.  The conclusion holds for
every `getSubs`, `store` and `folder`, so the result depends on none of
them: no folder enumeration, no reading of container contents, and no
store call occurs (source lines 142-145 return before line 148). -/
theorem c4_empty_assignment_short_circuit {ε : Type}
    (getSubs : Folder → Except Unit (List Folder))
    (store : List UpdateOp → Except ε Unit) (folder : Folder)
    (raw : List (String × String)) (h : normalizeForm raw = []) :
    cascadeOwnership getSubs store folder raw = (.nothingToApply, []) := by
  simp [cascadeOwnership, h]

/-- Witness for C4 at a concrete input: both entries are skipped (the
`-1` inherit sentinel and a non-numeric string), so the engine reports
"nothing to apply" with zero store calls even though the primary
enumeration strategy throws. -/
theorem c4_empty_assignment_short_circuit_witness :
    normalizeForm [("default", "-1"), ("user1", "abc")] = [] ∧
    cascadeOwnership (fun _ => .error ()) (fun _ => (Except.ok () : Except Unit Unit))
      folderB [("default", "-1"), ("user1", "abc")] = (.nothingToApply, []) :=
  ⟨by decide,
    c4_empty_assignment_short_circuit _ _ folderB [("default", "-1"), ("user1", "abc")]
      (by decide)⟩

/-- Claim C5: with a non-empty assignment and every collected container
empty of items, cascade reports "no documents found" with zero store
calls; that outcome is distinct from the empty-assignment outcome, and it
can only arise past the empty-assignment check (any invocation reporting
`noDocuments` necessarily had a non-empty normalized assignment). -/
theorem c5_empty_tree_no_documents {ε : Type}
    (getSubs : Folder → Except Unit (List Folder))
    (store : List UpdateOp → Except ε Unit) (folder : Folder)
    (raw : List (String × String))
    (h1 : normalizeForm raw ≠ [])
    (h2 : ∀ f ∈ collectFolders getSubs folder, f.contents = []) :
    cascadeOwnership getSubs store folder raw = (.noDocuments, []) ∧
    (CascadeResult.noDocuments : CascadeResult ε) ≠ .nothingToApply ∧
    ∀ (getSubs₂ : Folder → Except Unit (List Folder))
      (store₂ : List UpdateOp → Except ε Unit) (folder₂ : Folder)
      (raw₂ : List (String × String)),
      (cascadeOwnership getSubs₂ store₂ folder₂ raw₂).1 = .noDocuments →
      normalizeForm raw₂ ≠ [] := by
  have hb : buildUpdates (collectFolders getSubs folder) (normalizeForm raw) = [] := by
    unfold buildUpdates
    rw [List.flatMap_eq_nil_iff]
    intro f hf
    rw [h2 f hf]
    rfl
  refine ⟨by simp [cascadeOwnership, List.isEmpty_iff, h1, hb], by simp, ?_⟩
  intro getSubs₂ store₂ folder₂ raw₂ hres hr
  simp [cascadeOwnership, hr] at hres

/-- Witness for C5 at a concrete input: a tree of two folders with no
documents anywhere and the concrete assignment `{default: 2}`. -/
theorem c5_empty_tree_no_documents_witness :
    cascadeOwnership (fun _ => .ok [Folder.mk "sub" [] []])
      (fun _ => (Except.ok () : Except Unit Unit)) folderEmpty [("default", "2")] =
      (.noDocuments, []) :=
  (c5_empty_tree_no_documents (fun _ => .ok [Folder.mk "sub" [] []])
    (fun _ => (Except.ok () : Except Unit Unit)) folderEmpty [("default", "2")]
    (by decide) (by decide)).1

/-- Claim C6: whenever a batch is submitted, it is submitted exactly once
and it contains one operation per item of every collected container: its
length is the sum of the per-container item counts (an empty contents
list contributes zero), its operation identifiers are exactly the items
of the collected containers, and every operation carries the same
normalized assignment. -/
theorem c6_operations_count_and_shape {ε : Type}
    (getSubs : Folder → Except Unit (List Folder))
    (store : List UpdateOp → Except ε Unit) (folder : Folder)
    (raw : List (String × String))
    (h1 : normalizeForm raw ≠ [])
    (h2 : buildUpdates (collectFolders getSubs folder) (normalizeForm raw) ≠ []) :
    (cascadeOwnership getSubs store folder raw).2 =
      [buildUpdates (collectFolders getSubs folder) (normalizeForm raw)] ∧
    (buildUpdates (collectFolders getSubs folder) (normalizeForm raw)).length =
      ((collectFolders getSubs folder).map (fun f => f.contents.length)).sum ∧
    (buildUpdates (collectFolders getSubs folder) (normalizeForm raw)).map UpdateOp.id =
      (collectFolders getSubs folder).flatMap Folder.contents ∧
    ∀ op ∈ buildUpdates (collectFolders getSubs folder) (normalizeForm raw),
      op.ownership = normalizeForm raw := by
  refine ⟨?_, ?_, ?_, ?_⟩
  · rcases hs : store (buildUpdates (collectFolders getSubs folder) (normalizeForm raw))
      with u | e <;>
      simp [cascadeOwnership, List.isEmpty_iff, h1, h2, hs]
  · simp [buildUpdates, List.length_flatMap, Function.comp_def, List.length_map]
  · simp [buildUpdates, List.map_flatMap, List.map_map, Function.comp_def]
  · intro op hop
    rcases List.mem_flatMap.mp hop with ⟨f, hf, hop2⟩
    rcases List.mem_map.mp hop2 with ⟨d, hd, rfl⟩
    rfl

/-- Witness for C6 at the Scenario B tree: 2 + 3 + 0 items across the
three collected folders give a batch of length equal to that sum. -/
theorem c6_operations_count_and_shape_witness :
    (buildUpdates (collectFolders (fun _ => .ok [folderB1, folderB2]) folderB)
        (normalizeForm [("default", "3")])).length =
      ((collectFolders (fun _ => .ok [folderB1, folderB2]) folderB).map
        (fun f => f.contents.length)).sum :=
  (c6_operations_count_and_shape (fun _ => .ok [folderB1, folderB2])
    (fun _ => (Except.ok () : Except Unit Unit)) folderB [("default", "3")]
    (by decide) (by decide)).2.1

/-- Claim C7: when the store call succeeds, the reported outcome is
Success with `itemCount` the number of operations submitted and
`subfolderCount` one less than the number of containers collected (the
root is excluded from the sub-container count, source line 198). -/
theorem c7_success_reports_counts {ε : Type}
    (getSubs : Folder → Except Unit (List Folder))
    (store : List UpdateOp → Except ε Unit) (folder : Folder)
    (raw : List (String × String))
    (h1 : normalizeForm raw ≠ [])
    (h2 : buildUpdates (collectFolders getSubs folder) (normalizeForm raw) ≠ [])
    (h3 : store (buildUpdates (collectFolders getSubs folder) (normalizeForm raw)) =
      .ok ()) :
    (cascadeOwnership getSubs store folder raw).1 =
      .success (buildUpdates (collectFolders getSubs folder) (normalizeForm raw)).length
        ((collectFolders getSubs folder).length - 1) := by
  simp [cascadeOwnership, List.isEmpty_iff, h1, h2, h3]

/-- Witness for C7: Scenario B of the spec.  Root with 2 items, a
sub-folder with 3 items, a sub-sub-folder with 0 items, assignment
`{default: 3}`: three containers collected, five operations submitted,
the result reports itemCount 5 and subfolderCount 2. -/
theorem c7_success_reports_counts_witness :
    (cascadeOwnership (fun _ => .ok [folderB1, folderB2])
        (fun _ => (Except.ok () : Except Unit Unit)) folderB [("default", "3")]).1 =
      .success 5 2 := by
  have h := c7_success_reports_counts (fun _ => .ok [folderB1, folderB2])
    (fun _ => (Except.ok () : Except Unit Unit)) folderB [("default", "3")]
    (by decide) (by decide) rfl
  rw [h]
  decide

/-- Claim C8: when the store call fails with error `e`, the reported
outcome is the Failure outcome carrying `e` (a returned value, not a
re-raised exception), and the submitted-batch list has exactly one
element: one store call per invocation, no retry and no resubmission. -/
theorem c8_failure_reports_error_single_call {ε : Type}
    (getSubs : Folder → Except Unit (List Folder))
    (store : List UpdateOp → Except ε Unit) (folder : Folder)
    (raw : List (String × String)) (e : ε)
    (h1 : normalizeForm raw ≠ [])
    (h2 : buildUpdates (collectFolders getSubs folder) (normalizeForm raw) ≠ [])
    (h3 : store (buildUpdates (collectFolders getSubs folder) (normalizeForm raw)) =
      .error e) :
    cascadeOwnership getSubs store folder raw =
      (.storeFailure e,
        [buildUpdates (collectFolders getSubs folder) (normalizeForm raw)]) := by
  simp [cascadeOwnership, List.isEmpty_iff, h1, h2, h3]

/-- Witness for C8, Scenario E of the spec: a store that rejects with a
concrete error yields a StoreFailure outcome carrying that error and a
single submitted batch. -/
theorem c8_failure_reports_error_single_call_witness :
    cascadeOwnership (fun _ => .ok [folderB1, folderB2])
      (fun _ => (Except.error "boom" : Except String Unit)) folderB
      [("default", "3")] =
      (.storeFailure "boom",
        [buildUpdates (collectFolders (fun _ => .ok [folderB1, folderB2]) folderB)
          (normalizeForm [("default", "3")])]) :=
  c8_failure_reports_error_single_call (fun _ => .ok [folderB1, folderB2])
    (fun _ => (Except.error "boom" : Except String Unit)) folderB [("default", "3")]
    "boom" (by decide) (by decide) rfl

theorem levelOf_eq_some_iff (v : String) (l : Nat) :
    levelOf v = some l ↔
      jsToNumber v = .val (l : ℚ) ∧ (l = 0 ∨ l = 1 ∨ l = 2 ∨ l = 3) := by
  unfold levelOf
  cases h : jsToNumber v with
  | nan => simp
  | inf n => simp
  | val q =>
      simp only [JSNumber.val.injEq]
      by_cases hq : q = 0 ∨ q = 1 ∨ q = 2 ∨ q = 3
      · rw [if_pos hq]
        simp only [Option.some.injEq]
        constructor
        · intro hl
          rcases hq with rfl | rfl | rfl | rfl <;> simp at hl <;> subst hl <;> decide
        · rintro ⟨rfl, hl⟩
          rcases hl with rfl | rfl | rfl | rfl <;> decide
      · rw [if_neg hq]
        constructor
        · intro h0
          cases h0
        · rintro ⟨rfl, hl⟩
          exact absurd (by rcases hl with rfl | rfl | rfl | rfl <;> decide) hq

theorem normalizeForm_cons_none (k0 v0 : String) (rest : List (String × String))
    (h : levelOf v0 = none) :
    normalizeForm ((k0, v0) :: rest) = normalizeForm rest := by
  simp [normalizeForm, List.filterMap_cons, h]

theorem normalizeForm_cons_some (k0 v0 : String) (rest : List (String × String))
    (l0 : Nat) (h : levelOf v0 = some l0) :
    normalizeForm ((k0, v0) :: rest) = (k0, l0) :: normalizeForm rest := by
  simp [normalizeForm, List.filterMap_cons, h]

theorem normalizeForm_lookup_none (raw : List (String × String)) (k : String)
    (h : k ∉ raw.map Prod.fst) : (normalizeForm raw).lookup k = none := by
  induction raw with
  | nil => rfl
  | cons kv rest ih =>
      obtain ⟨k0, v0⟩ := kv
      simp only [List.map_cons, List.mem_cons, not_or] at h
      obtain ⟨hne, hnin⟩ := h
      have hb : (k == k0) = false := beq_eq_false_iff_ne.mpr hne
      cases hl : levelOf v0 with
      | none =>
          rw [normalizeForm_cons_none k0 v0 rest hl]
          exact ih hnin
      | some l0 =>
          rw [normalizeForm_cons_some k0 v0 rest l0 hl, List.lookup_cons]
          simp only [hb, cond_false]
          exact ih hnin

/-- Claim C1: the normalized ownership map contains exactly those keys
whose raw value coerces to a number in `{0,1,2,3}`, each mapped to that
level; a key whose value coerces to any other number, or to NaN, is
absent.  Raw form data has distinct keys (it is read off a JS object). -/
theorem c1_normalize_keeps_exactly_valid_levels (raw : List (String × String))
    (hnd : (raw.map Prod.fst).Nodup) (k : String) (l : Nat) :
    (normalizeForm raw).lookup k = some l ↔
      ∃ v, raw.lookup k = some v ∧ jsToNumber v = .val (l : ℚ) ∧
        (l = 0 ∨ l = 1 ∨ l = 2 ∨ l = 3) := by
  induction raw with
  | nil => simp [normalizeForm]
  | cons kv rest ih =>
      obtain ⟨k0, v0⟩ := kv
      simp only [List.map_cons, List.nodup_cons] at hnd
      obtain ⟨hk0, hrest⟩ := hnd
      by_cases hk : k = k0
      · subst hk
        cases hl : levelOf v0 with
        | none =>
            rw [normalizeForm_cons_none k v0 rest hl,
              normalizeForm_lookup_none rest k hk0, List.lookup_cons_self]
            constructor
            · intro h0
              cases h0
            · rintro ⟨v, hv, hp⟩
              injection hv with hv
              subst hv
              have := (levelOf_eq_some_iff v0 l).mpr hp
              rw [hl] at this
              cases this
        | some l0 =>
            rw [normalizeForm_cons_some k v0 rest l0 hl, List.lookup_cons_self,
              List.lookup_cons_self]
            constructor
            · intro h0
              injection h0 with h0
              subst h0
              exact ⟨v0, rfl, (levelOf_eq_some_iff v0 l0).mp hl⟩
            · rintro ⟨v, hv, hp⟩
              injection hv with hv
              subst hv
              have := (levelOf_eq_some_iff v0 l).mpr hp
              rw [hl] at this
              injection this with this
              rw [this]
      · have hb : (k == k0) = false := beq_eq_false_iff_ne.mpr hk
        cases hl : levelOf v0 with
        | none =>
            rw [normalizeForm_cons_none k0 v0 rest hl, List.lookup_cons]
            simp only [hb, cond_false]
            exact ih hrest
        | some l0 =>
            rw [normalizeForm_cons_some k0 v0 rest l0 hl, List.lookup_cons,
              List.lookup_cons]
            simp only [hb, cond_false]
            exact ih hrest

/-- Witness for C1.  First conjunct is Scenario A of the spec: raw input
`{default: "2", user1: "-1"}` normalizes to `{default: 2}` (the `-1`
sentinel parses to a number outside `{0,1,2,3}` and is dropped).  Second
conjunct exercises binary64 rounding: `"3.0000000000000000001"` is within
half an ulp of 3, so `Number` coerces it to exactly 3 and the key is
kept at level 3. -/
theorem c1_normalize_keeps_exactly_valid_levels_witness :
    (normalizeForm [("default", "2"), ("user1", "-1")]).lookup "default" = some 2 ∧
    (normalizeForm [("k", "3.0000000000000000001")]).lookup "k" = some 3 :=
  ⟨(c1_normalize_keeps_exactly_valid_levels [("default", "2"), ("user1", "-1")]
      (by decide) "default" 2).mpr ⟨"2", by decide, by decide, by decide⟩,
    (c1_normalize_keeps_exactly_valid_levels [("k", "3.0000000000000000001")]
      (by decide) "k" 3).mpr
      ⟨"3.0000000000000000001", by decide, by decide, by decide⟩⟩

theorem trimWs_of_all_white (cs : List Char) (h : cs.all isStrWhite) :
    trimWs cs = [] := by
  unfold trimWs
  have h1 : cs.dropWhile isStrWhite = [] := by
    rw [List.dropWhile_eq_nil_iff]
    intro x hx
    exact List.all_eq_true.mp h x hx
  rw [h1]
  rfl

/-- Claim C10: a key whose raw value is the empty string, or any
whitespace-only string, is kept by normalization and mapped to permission
level 0, because `Number` coerces such strings to 0, which is in the
valid-level set. -/
theorem c10_blank_value_maps_to_level_zero (raw : List (String × String))
    (k s : String) (hw : s.toList.all isStrWhite) (hmem : (k, s) ∈ raw) :
    (k, 0) ∈ normalizeForm raw := by
  refine List.mem_filterMap.mpr ⟨(k, s), hmem, ?_⟩
  have hj : jsToNumber s = .val 0 := by
    unfold jsToNumber jsParseExact
    rw [trimWs_of_all_white _ hw]
    decide
  have hl : levelOf s = some 0 := by
    unfold levelOf
    rw [hj]
    norm_num
  simp [hl]

/-- Witness for C10 at concrete inputs: the empty string, a one-space
string, and a no-break-space-only string (U+00A0, also StrWhiteSpace)
each map their key to level 0. -/
theorem c10_blank_value_maps_to_level_zero_witness :
    (("u", 0) ∈ normalizeForm [("u", "")]) ∧
    (("d", 0) ∈ normalizeForm [("d", " ")]) ∧
    (("n", 0) ∈ normalizeForm [("n", "\u00A0")]) :=
  ⟨c10_blank_value_maps_to_level_zero [("u", "")] "u" "" (by decide) (by decide),
    c10_blank_value_maps_to_level_zero [("d", " ")] "d" " " (by decide) (by decide),
    c10_blank_value_maps_to_level_zero [("n", "\u00A0")] "n" "\u00A0" (by decide)
      (by decide)⟩

theorem applyBatch_not_mem (ops : List UpdateOp) :
    ∀ (s : StoreState) (i : String), i ∉ ops.map UpdateOp.id →
      applyBatch s ops i = s i := by
  induction ops with
  | nil => intro s i h; rfl
  | cons op rest ih =>
      intro s i h
      simp only [List.map_cons, List.mem_cons, not_or] at h
      obtain ⟨hne, hnin⟩ := h
      show applyBatch (Function.update s op.id (some op.ownership)) rest i = s i
      rw [ih _ _ hnin]
      exact Function.update_noteq hne _ _

theorem applyBatch_mem_eq (ops : List UpdateOp) :
    ∀ (s t : StoreState) (i : String), i ∈ ops.map UpdateOp.id →
      applyBatch s ops i = applyBatch t ops i := by
  induction ops with
  | nil => intro s t i h; cases h
  | cons op rest ih =>
      intro s t i h
      by_cases hr : i ∈ rest.map UpdateOp.id
      · exact ih _ _ _ hr
      · have hi : i = op.id := by
          simp only [List.map_cons, List.mem_cons] at h
          tauto
        show applyBatch (Function.update s op.id (some op.ownership)) rest i =
          applyBatch (Function.update t op.id (some op.ownership)) rest i
        rw [applyBatch_not_mem rest _ i hr, applyBatch_not_mem rest _ i hr]
        subst hi
        rw [Function.update_same, Function.update_same]

theorem applyBatch_idem (s : StoreState) (ops : List UpdateOp) :
    applyBatch (applyBatch s ops) ops = applyBatch s ops := by
  funext i
  by_cases h : i ∈ ops.map UpdateOp.id
  · exact applyBatch_mem_eq ops _ s i h
  · rw [applyBatch_not_mem ops _ i h]

theorem cascade_batches_cases (getSubs : Folder → Except Unit (List Folder))
    {ε : Type} (store : List UpdateOp → Except ε Unit) (folder : Folder)
    (raw : List (String × String)) :
    (cascadeOwnership getSubs store folder raw).2 = [] ∨
    ∃ b, (cascadeOwnership getSubs store folder raw).2 = [b] := by
  by_cases h1 : (normalizeForm raw).isEmpty
  · left
    simp [cascadeOwnership, h1]
  · by_cases h2 : (buildUpdates (collectFolders getSubs folder) (normalizeForm raw)).isEmpty
    · left
      simp [cascadeOwnership, h1, h2]
    · right
      cases hs : store (buildUpdates (collectFolders getSubs folder) (normalizeForm raw))
        with
      | ok u =>
          exact ⟨buildUpdates (collectFolders getSubs folder) (normalizeForm raw),
            by simp [cascadeOwnership, h1, h2, hs]⟩
      | error e =>
          exact ⟨buildUpdates (collectFolders getSubs folder) (normalizeForm raw),
            by simp [cascadeOwnership, h1, h2, hs]⟩

/-- Claim C9: against a store that records only final per-item ownership,
running the same cascade invocation twice in a row leaves exactly the
state one run leaves: the second run resubmits an identical batch whose
operations overwrite each item with the value it already has. -/
theorem c9_cascade_idempotent_on_recording_store
    (getSubs : Folder → Except Unit (List Folder)) (folder : Folder)
    (raw : List (String × String)) (s : StoreState) :
    recordingCascade getSubs folder raw (recordingCascade getSubs folder raw s) =
      recordingCascade getSubs folder raw s := by
  rcases cascade_batches_cases getSubs (fun _ => (Except.ok () : Except Unit Unit))
    folder raw with h | ⟨b, h⟩
  · simp [recordingCascade, h]
  · simp [recordingCascade, h, applyBatch_idem]

theorem sizeL_cons (f : Folder) (l : List Folder) :
    sizeL (f :: l) = 1 + sizeL f.children + sizeL l := by
  cases f with
  | mk i c ch => simp [sizeL, Folder.children]

theorem sizeL_append (l₁ l₂ : List Folder) :
    sizeL (l₁ ++ l₂) = sizeL l₁ + sizeL l₂ := by
  induction l₁ with
  | nil => simp [sizeL]
  | cons f rest ih =>
      cases f with
      | mk i c ch =>
          simp only [List.cons_append, sizeL, ih]
          omega

theorem sizeL_reverse (l : List Folder) : sizeL l.reverse = sizeL l := by
  induction l with
  | nil => rfl
  | cons f rest ih =>
      rw [List.reverse_cons, sizeL_append, ih, sizeL_cons]
      cases f with
      | mk i c ch =>
          simp only [sizeL, Folder.children]
          omega

theorem manualLoop_nil (acc : List Folder) : manualLoop [] acc = acc.reverse := by
  rw [manualLoop]

theorem manualLoop_cons (f : Folder) (stack acc : List Folder) :
    manualLoop (f :: stack) acc = manualLoop (f.children.reverse ++ stack) (f :: acc) := by
  rw [manualLoop]

theorem preorderL_cons (f : Folder) (l : List Folder) :
    preorderL (f :: l) = f :: (preorderL f.children ++ preorderL l) := by
  cases f with
  | mk i c ch => simp [preorderL, Folder.children]

theorem preorderL_append (l₁ l₂ : List Folder) :
    preorderL (l₁ ++ l₂) = preorderL l₁ ++ preorderL l₂ := by
  induction l₁ with
  | nil => simp [preorderL]
  | cons f rest ih =>
      rw [List.cons_append, preorderL_cons, preorderL_cons, ih]
      simp [List.append_assoc]

theorem preorderL_reverse_perm (l : List Folder) :
    List.Perm (preorderL l.reverse) (preorderL l) := by
  induction l with
  | nil => exact List.Perm.refl _
  | cons f rest ih =>
      rw [List.reverse_cons, preorderL_append]
      have s1 : List.Perm (preorderL rest.reverse ++ preorderL [f])
          (preorderL rest ++ preorderL [f]) := ih.append_right _
      have s2 : List.Perm (preorderL rest ++ preorderL [f])
          (preorderL [f] ++ preorderL rest) := List.perm_append_comm
      have s3 : preorderL [f] ++ preorderL rest = preorderL (f :: rest) := by
        rw [preorderL_cons, preorderL_cons]
        simp [preorderL]
      have := s1.trans s2
      rwa [s3] at this

theorem manualLoop_perm : ∀ (n : Nat) (stack acc : List Folder), sizeL stack ≤ n →
    List.Perm (manualLoop stack acc) (preorderL stack ++ acc) := by
  intro n
  induction n with
  | zero =>
      intro stack acc h
      cases stack with
      | nil =>
          rw [manualLoop_nil]
          simp only [preorderL, List.nil_append]
          exact List.reverse_perm acc
      | cons f rest =>
          rw [sizeL_cons] at h
          omega
  | succ m ih =>
      intro stack acc h
      cases stack with
      | nil =>
          rw [manualLoop_nil]
          simp only [preorderL, List.nil_append]
          exact List.reverse_perm acc
      | cons f rest =>
          rw [manualLoop_cons]
          have hm : sizeL (f.children.reverse ++ rest) ≤ m := by
            rw [sizeL_append, sizeL_reverse]
            rw [sizeL_cons] at h
            omega
          have h1 := ih _ (f :: acc) hm
          rw [preorderL_append] at h1
          have h2 : List.Perm
              (preorderL f.children.reverse ++ preorderL rest ++ (f :: acc))
              (preorderL f.children ++ preorderL rest ++ (f :: acc)) :=
            ((preorderL_reverse_perm f.children).append_right _).append_right _
          have h3 : List.Perm
              (preorderL f.children ++ preorderL rest ++ (f :: acc))
              (f :: (preorderL f.children ++ preorderL rest ++ acc)) :=
            List.perm_middle
          have h4 : f :: (preorderL f.children ++ preorderL rest ++ acc) =
              preorderL (f :: rest) ++ acc := by
            rw [preorderL_cons]
            simp [List.append_assoc]
          have := (h1.trans h2).trans h3
          rwa [h4] at this

theorem getSubfoldersManual_perm (root : Folder) :
    List.Perm (getSubfoldersManual root) (descendantsSpec root) := by
  unfold getSubfoldersManual descendantsSpec
  have h1 := manualLoop_perm (sizeL root.children.reverse) root.children.reverse [] le_rfl
  rw [List.append_nil] at h1
  exact h1.trans (preorderL_reverse_perm _)

theorem allNodes_eq (root : Folder) :
    allNodes root = root :: descendantsSpec root := by
  cases root with
  | mk i c ch => simp [allNodes, preorderL_cons, preorderL, descendantsSpec]

/-- Claim C3: for every (acyclic) container tree, the collected list —
root prepended to either enumeration strategy's output — is a permutation
of the canonical enumeration of all containers reachable from the root,
so it contains the root and every reachable container exactly once, with
no duplicates or omissions; and the manual fallback walk produces the
same multiset of containers as the spec-modelled primary strategy.  When
the tree's folder identifiers are distinct (distinct references), the
collected identifier lists are duplicate-free. -/
theorem c3_collection_exact_and_strategy_agreement (root : Folder) :
    List.Perm (root :: getSubfoldersManual root) (allNodes root) ∧
    List.Perm (root :: descendantsSpec root) (allNodes root) ∧
    List.Perm (getSubfoldersManual root) (descendantsSpec root) ∧
    (((allNodes root).map Folder.id).Nodup →
      ((root :: getSubfoldersManual root).map Folder.id).Nodup ∧
      ((root :: descendantsSpec root).map Folder.id).Nodup) := by
  have hm := getSubfoldersManual_perm root
  have h2 : List.Perm (root :: descendantsSpec root) (allNodes root) := by
    rw [allNodes_eq]
  have h1 : List.Perm (root :: getSubfoldersManual root) (allNodes root) :=
    (hm.cons root).trans h2
  refine ⟨h1, h2, hm, ?_⟩
  intro hnd
  exact ⟨((h1.map Folder.id).nodup_iff).mpr hnd, ((h2.map Folder.id).nodup_iff).mpr hnd⟩

/-- Witness for C3 at the Scenario B tree, whose three folder identifiers
are distinct: both strategies collect each of the three containers
exactly once. -/
theorem c3_collection_exact_and_strategy_agreement_witness :
    ((folderB :: getSubfoldersManual folderB).map Folder.id).Nodup ∧
    ((folderB :: descendantsSpec folderB).map Folder.id).Nodup := by
  have hall : allNodes folderB = [folderB, folderB1, folderB2] := by
    simp [allNodes, preorderL, folderB, folderB1, folderB2]
  refine (c3_collection_exact_and_strategy_agreement folderB).2.2.2 ?_
  rw [hall]
  decide

theorem cycGraph_loop_none :
    ∀ (n : Nat) (acc : List Nat),
      manualLoopFuel cycGraph n [1] acc = none ∧
      manualLoopFuel cycGraph n [0] acc = none := by
  intro n
  induction n with
  | zero => intro acc; exact ⟨rfl, rfl⟩
  | succ m ih =>
      intro acc
      constructor
      · show manualLoopFuel cycGraph m [0] (1 :: acc) = none
        exact (ih _).2
      · show manualLoopFuel cycGraph m [1] (0 :: acc) = none
        exact (ih _).1

/-- Counterexample to Claim C2: on the concrete two-folder heap whose
child references form a cycle, the manual fallback walk never empties its
stack — no amount of fuel makes the loop of `_getSubfoldersManual`
return.  The loop's only guard (`instanceof Folder`, source line 211)
skips non-folders; it never checks whether a folder reference was already
visited. -/
theorem c2_manual_traversal_cycle_diverges : ¬ manualTerminates cycGraph 0 := by
  rintro ⟨fuel, res, h⟩
  have h0 : (rootChildren cycGraph 0).reverse = [1] := by decide
  unfold getSubfoldersManualFuel at h
  rw [h0, (cycGraph_loop_none fuel []).1] at h
  cases h

theorem le_foldr_max (x : Nat) (l : List Nat) (hx : x ∈ l) :
    x ≤ l.foldr max 0 := by
  induction l with
  | nil => cases hx
  | cons a l ih =>
      rcases List.mem_cons.mp hx with h | h
      · subst h
        exact Nat.le_max_left _ _
      · exact le_trans (ih h) (Nat.le_max_right _ _)

theorem children_length_le_outDegBound (g : RefGraph) (i : Nat) (nd : FolderNode)
    (h : lookupNode g i = some nd) : nd.children.length ≤ outDegBound g := by
  unfold lookupNode at h
  rcases Option.map_eq_some'.mp h with ⟨p, hfind, hp⟩
  have hmem : p ∈ g := List.mem_of_find?_eq_some hfind
  have hx : p.2.children.length ∈ g.map (fun p => p.2.children.length) :=
    List.mem_map_of_mem _ hmem
  have := le_foldr_max _ _ hx
  rw [hp] at this
  exact this

theorem potential_append (g : RefGraph) (rank : Nat → Nat) (l₁ l₂ : List Nat) :
    potential g rank (l₁ ++ l₂) = potential g rank l₁ + potential g rank l₂ := by
  simp [potential]

theorem potential_reverse (g : RefGraph) (rank : Nat → Nat) (l : List Nat) :
    potential g rank l.reverse = potential g rank l := by
  simp [potential, List.map_reverse, List.sum_reverse]

theorem potential_children_lt (g : RefGraph) (rank : Nat → Nat) (i : Nat)
    (nd : FolderNode) (hl : lookupNode g i = some nd)
    (hedge : ∀ c ∈ nd.children, rank c < rank i) :
    potential g rank nd.children < nodeWeight g rank i := by
  cases hr : rank i with
  | zero =>
      have hnil : nd.children = [] := by
        rcases hc : nd.children with _ | ⟨c, cs⟩
        · rfl
        · exfalso
          have := hedge c (by rw [hc]; exact List.mem_cons_self c cs)
          rw [hr] at this
          omega
      rw [hnil]
      simp [potential, nodeWeight, hr]
  | succ s0 =>
      have hb : ∀ x ∈ nd.children.map (nodeWeight g rank),
          x ≤ (outDegBound g + 1) ^ s0 := by
        intro x hx
        rcases List.mem_map.mp hx with ⟨c, hc, rfl⟩
        have h1 : rank c < rank i := hedge c hc
        rw [hr] at h1
        exact Nat.pow_le_pow_right (by omega) (Nat.lt_succ_iff.mp h1)
      have hsum := List.sum_le_card_nsmul _ _ hb
      rw [List.length_map, smul_eq_mul] at hsum
      have hlen : nd.children.length ≤ outDegBound g :=
        children_length_le_outDegBound g i nd hl
      have hle : potential g rank nd.children ≤
          outDegBound g * (outDegBound g + 1) ^ s0 := by
        unfold potential
        exact le_trans hsum (Nat.mul_le_mul_right _ hlen)
      have hp : 0 < (outDegBound g + 1) ^ s0 := Nat.pos_pow_of_pos _ (by omega)
      have hlt : outDegBound g * (outDegBound g + 1) ^ s0 <
          (outDegBound g + 1) ^ (s0 + 1) := by
        rw [pow_succ, Nat.mul_comm (outDegBound g)]
        exact Nat.mul_lt_mul_of_pos_left (Nat.lt_succ_self _) hp
      unfold nodeWeight
      rw [hr]
      exact lt_of_le_of_lt hle hlt

theorem manualLoopFuel_terminates (g : RefGraph) (rank : Nat → Nat)
    (hrank : ∀ p ∈ g, ∀ c ∈ p.2.children, rank c < rank p.1) :
    ∀ (n : Nat) (stack acc : List Nat), potential g rank stack ≤ n →
      ∃ res, manualLoopFuel g n stack acc = some res := by
  intro n
  induction n with
  | zero =>
      intro stack acc h
      cases stack with
      | nil => exact ⟨acc.reverse, rfl⟩
      | cons i rest =>
          exfalso
          have h1 : 1 ≤ nodeWeight g rank i := Nat.one_le_pow _ _ (by omega)
          have hpc : potential g rank (i :: rest) =
              nodeWeight g rank i + potential g rank rest := by
            simp [potential]
          omega
  | succ m ih =>
      intro stack acc h
      cases stack with
      | nil => exact ⟨acc.reverse, rfl⟩
      | cons i rest =>
          have hpc : potential g rank (i :: rest) =
              nodeWeight g rank i + potential g rank rest := by
            simp [potential]
          cases hl : lookupNode g i with
          | none =>
              have h1 : 1 ≤ nodeWeight g rank i := Nat.one_le_pow _ _ (by omega)
              obtain ⟨res, hres⟩ := ih rest acc (by omega)
              exact ⟨res, by simp [manualLoopFuel, hl, hres]⟩
          | some nd =>
              have hedge : ∀ c ∈ nd.children, rank c < rank i := by
                intro c hc
                unfold lookupNode at hl
                rcases Option.map_eq_some'.mp hl with ⟨p0, hfind, hp2⟩
                have hmem := List.mem_of_find?_eq_some hfind
                have hpred := List.find?_some hfind
                have heq : p0.1 = i := by simpa using hpred
                have := hrank p0 hmem c (by rw [hp2]; exact hc)
                rwa [heq] at this
              have hchild := potential_children_lt g rank i nd hl hedge
              have hnew : potential g rank (nd.children.reverse ++ rest) ≤ m := by
                rw [potential_append, potential_reverse]
                omega
              obtain ⟨res, hres⟩ := ih _ (i :: acc) hnew
              exact ⟨res, by simp [manualLoopFuel, hl, hres]⟩

/-- Claim C2, amended: the manual fallback walk does use an explicit
iterative stack, but its only guard skips non-folder stack entries; it
does not guard against revisiting the same container reference.  The
traversal therefore terminates on every acyclic container graph — here,
every heap admitting a rank function that strictly decreases along
child-reference edges — while a heap with a cycle among child references
makes it diverge (see the counterexample). -/
theorem c2_manual_traversal_terminates_acyclic (g : RefGraph) (root : Nat)
    (rank : Nat → Nat)
    (hrank : ∀ p ∈ g, ∀ c ∈ p.2.children, rank c < rank p.1) :
    manualTerminates g root := by
  obtain ⟨res, h⟩ := manualLoopFuel_terminates g rank hrank
    (potential g rank (rootChildren g root).reverse)
    (rootChildren g root).reverse [] le_rfl
  exact ⟨_, res, h⟩

/-- Witness for the amended C2 at a concrete acyclic heap: ranking the
two folders by `2 - id` decreases along the single child edge, so the
manual walk terminates. -/
theorem c2_manual_traversal_terminates_acyclic_witness :
    (∀ p ∈ dagGraph, ∀ c ∈ p.2.children, 2 - c < 2 - p.1) ∧
    manualTerminates dagGraph 0 :=
  ⟨by decide,
    c2_manual_traversal_terminates_acyclic dagGraph 0 (fun i => 2 - i) (by decide)⟩
